import Mathlib

/-!
Verification of a Nim game with a tabular Q-learning agent (`src/nim.py`).

The embedding is shallow: Python's in-place mutation becomes explicit state
passing, `raise` becomes an error value returned alongside the (unchanged)
object state, Python `float` Q-values become `ℚ`, and Python `int` becomes
`ℤ` (pile contents, which the code keeps non-negative, become `ℕ`).
-/

/-- A game state's pile configuration, i.e. Python's `tuple(state)` key:
one entry per pile, each the number of items remaining. -/
abbrev State := List ℕ

/-- An action `(i, j)`: remove `j` items from pile `i`.  Python ints. -/
abbrev NimAction := ℤ × ℤ

/-- The exceptions the program raises (`raise Exception("...")` in `nim.py`):
"Game already won", "Invalid pile", "Invalid number of objects" in `Nim.move`,
and "No available actions." in `NimAI.choose_action`. -/
inductive NimError where
  | gameAlreadyWon
  | invalidPile
  | invalidNumberOfObjects
  | noAvailableActions
deriving DecidableEq, Repr

/-- The game board (`class Nim`): `piles`, `player` (0 or 1), `winner`
(`None`, 0 or 1). -/
structure Nim where
  piles : List ℕ
  player : ℕ
  winner : Option ℕ
deriving DecidableEq, Repr

/-- `Nim.__init__(initial=[1,3,5,7])`: piles are a copy of `initial`,
player 0 to move, no winner. -/
def Nim.start (initial : List ℕ := [1, 3, 5, 7]) : Nim :=
  ⟨initial, 0, none⟩

/-- The nested loops of `Nim.available_actions`, unfolded structurally:
`for i, pile in enumerate(piles): for j in range(1, pile + 1): add (i, j)`,
with `i` starting at the given offset.  `List.range p` yields `0..p-1`, so
`j+1` ranges over `1..p` exactly as `range(1, pile + 1)` does. -/
def availableActionsFrom (i : ℕ) : List ℕ → List NimAction
  | [] => []
  | p :: ps =>
      ((List.range p).map fun j : ℕ => ((i : ℤ), (j : ℤ) + 1))
        ++ availableActionsFrom (i + 1) ps

/-- `Nim.available_actions(piles)`: all `(i, j)` with `1 ≤ j ≤ piles[i]`.
The Python version returns a `set`; the enumeration here is duplicate-free,
so the list represents that set faithfully. -/
def Nim.available_actions (piles : List ℕ) : List NimAction :=
  availableActionsFrom 0 piles

/-- `Nim.other_player(player)`: `0 if player == 1 else 1`. -/
def Nim.other_player (player : ℕ) : ℕ :=
  if player = 1 then 0 else 1

/-- `Nim.switch_player()`: sets `self.player` to the other player. -/
def Nim.switch_player (g : Nim) : Nim :=
  { g with player := Nim.other_player g.player }

/-- `Nim.move(action)`.  Returns the raised exception (if any) together with
the object's state after the call; every `raise` happens before any mutation,
so on failure the state comes back unchanged.  On success: the target pile is
decremented by `count`, the player is switched, and if all piles are then
zero the winner is set to the (switched-to) current player. -/
def Nim.move (g : Nim) (action : NimAction) : Option NimError × Nim :=
  let pile := action.1
  let count := action.2
  if g.winner.isSome then
    (some .gameAlreadyWon, g)
  else if pile < 0 ∨ (g.piles.length : ℤ) ≤ pile then
    (some .invalidPile, g)
  else if count < 1 ∨ (g.piles.getD pile.toNat 0 : ℤ) < count then
    (some .invalidNumberOfObjects, g)
  else
    let g1 : Nim := { g with piles := g.piles.set pile.toNat (g.piles.getD pile.toNat 0 - count.toNat) }
    let g2 := g1.switch_player
    let g3 := if g2.piles.all (· = 0) then { g2 with winner := some g2.player } else g2
    (none, g3)

/-- A Python sequence of pile counts as passed around by the program: either a
`list` (e.g. `game.piles`) or a `tuple`.  `NimAI` methods call `tuple(state)`
on it, which yields the same key for both when the values agree in order. -/
inductive PySeq where
  | list (xs : State)
  | tup (xs : State)
deriving DecidableEq, Repr

/-- `tuple(state)`: the canonical key built from either container. -/
def PySeq.tupleOf : PySeq → State
  | .list xs => xs
  | .tup xs => xs

/-- The Q-learning agent (`class NimAI`): the dictionary `self.q` mapping
`(state-tuple, action)` keys to values, plus `alpha` and `epsilon`. -/
structure NimAI where
  q : State × NimAction → Option ℚ
  alpha : ℚ
  epsilon : ℚ

/-- `NimAI.__init__(alpha=0.5, epsilon=0.1)`: empty dictionary. -/
def NimAI.start (alpha : ℚ := 1 / 2) (epsilon : ℚ := 1 / 10) : NimAI :=
  ⟨fun _ => none, alpha, epsilon⟩

/-- `NimAI.get_q_value(state, action)`:
`self.q.get((tuple(state), action), 0)`. -/
def NimAI.get_q_value (ai : NimAI) (state : PySeq) (action : NimAction) : ℚ :=
  (ai.q (state.tupleOf, action)).getD 0

/-- The dictionary store `self.q[(tuple(state), action)] = v` that
`NimAI.update_q_value` performs. -/
def NimAI.q_assign (ai : NimAI) (state : PySeq) (action : NimAction) (v : ℚ) : NimAI :=
  { ai with q := fun k => if k = (state.tupleOf, action) then some v else ai.q k }

/-- `NimAI.update_q_value(state, action, old_q, reward, future_rewards)`:
stores `old_q + alpha * ((reward + future_rewards) - old_q)`. -/
def NimAI.update_q_value (ai : NimAI) (state : PySeq) (action : NimAction)
    (old_q reward future_rewards : ℚ) : NimAI :=
  ai.q_assign state action (old_q + ai.alpha * ((reward + future_rewards) - old_q))

/-- Python's `max` over a non-empty list of values: fold of the binary max.
(`max(gen)` keeps the larger of the running value and each element.) -/
def listMaxD : List ℚ → ℚ
  | [] => 0
  | x :: xs => xs.foldl max x

/-- `NimAI.best_future_reward(state)`: 0 when no action is available,
otherwise `max(self.q.get((tuple(state), a), 0) for a in actions)`. -/
def NimAI.best_future_reward (ai : NimAI) (state : PySeq) : ℚ :=
  let st := state.tupleOf
  match Nim.available_actions st with
  | [] => 0
  | a :: rest => listMaxD ((a :: rest).map fun act => (ai.q (st, act)).getD 0)

/-- `NimAI.update(old_state, action, new_state, reward)`: reads the old
value, computes the best future reward of `new_state`, and stores the
updated estimate. -/
def NimAI.update (ai : NimAI) (old_state : PySeq) (action : NimAction)
    (new_state : PySeq) (reward : ℚ) : NimAI :=
  let old := ai.get_q_value old_state action
  let best_future := ai.best_future_reward new_state
  ai.update_q_value old_state action old reward best_future

/-- Python's `max(actions, key=f)` on a non-empty list `x :: rest`: scan the
rest, replacing the running maximum only on a strictly larger key (so ties
keep the earlier element, as CPython does). -/
def maxByKey (f : NimAction → ℚ) (x : NimAction) : List NimAction → NimAction
  | [] => x
  | a :: rest => maxByKey f (if f x < f a then a else x) rest

/-- `NimAI.choose_action(state, epsilon=True)`.  The emptiness check comes
first in the source, before any random draw.  The random part is made
explicit: `explorePick = some a` models the run where the epsilon branch
fired and `random.choice(actions)` returned `a`; `explorePick = none` models
`epsilon=False` or an epsilon draw that fell through to greedy selection,
which returns `max(actions, key=lambda a: self.q.get((tuple(state), a), 0))`. -/
def NimAI.choose_action (ai : NimAI) (state : PySeq) (explorePick : Option NimAction) :
    Except NimError NimAction :=
  match Nim.available_actions state.tupleOf with
  | [] => .error .noAvailableActions
  | a :: rest =>
      match explorePick with
      | some pick => .ok pick
      | none => .ok (maxByKey (fun act => (ai.q (state.tupleOf, act)).getD 0) a rest)

/-- How one pass of the `while True:` body in `train` can end: the move can
raise, or — when the game is over but the (new) current player has no
recorded last move — `update(None, None, ...)` would call `tuple(None)` and
raise a `TypeError`. -/
inductive TrainStepError where
  | moveFailed (e : NimError)
  | typeError
deriving DecidableEq, Repr

/-- One pass of the game loop in `train`, with the randomly chosen action
passed in explicitly.  Records the mover's `(state, action)` into `last`,
makes the move, and then: if a winner resulted, updates the just-made move
with reward `-1` and the new current player's last move with reward `+1`
(episode over, `Bool` result `true`); otherwise, if the new current player
has a recorded last move, updates it with reward `0`.  Returns the agent,
the game, the `last` table and whether the episode ended. -/
def trainStep (ai : NimAI) (game : Nim) (last : ℕ → Option (State × NimAction))
    (action : NimAction) :
    Except TrainStepError (NimAI × Nim × (ℕ → Option (State × NimAction)) × Bool) :=
  let state := game.piles
  let last1 : ℕ → Option (State × NimAction) :=
    fun p => if p = game.player then some (state, action) else last p
  match game.move action with
  | (some e, _) => .error (.moveFailed e)
  | (none, g2) =>
      let new_state := g2.piles
      if g2.winner.isSome then
        let ai1 := ai.update (.list state) action (.list new_state) (-1)
        match last1 g2.player with
        | some (ls, la) =>
            .ok (ai1.update (.list ls) la (.list new_state) 1, g2, last1, true)
        | none => .error .typeError
      else
        match last1 g2.player with
        | some (ls, la) =>
            .ok (ai.update (.list ls) la (.list new_state) 0, g2, last1, false)
        | none => .ok (ai, g2, last1, false)

/-- The agent component of a successful training-loop pass (used to observe
Q-values after a step). -/
def stepAI (r : Except TrainStepError (NimAI × Nim × (ℕ → Option (State × NimAction)) × Bool)) :
    NimAI :=
  match r with
  | .ok x => x.1
  | .error _ => NimAI.start 0 0

/-- Whether a successful training-loop pass ended the episode (the `break`). -/
def stepEnded (r : Except TrainStepError (NimAI × Nim × (ℕ → Option (State × NimAction)) × Bool)) :
    Bool :=
  match r with
  | .ok x => x.2.2.2
  | .error _ => false

/-- A mid-episode `last` table for the `[0,0,0,1]` scenario: player 1's most
recent move was taking one item from pile 2 when the piles were `[0,0,1,1]`;
player 0 has the move. -/
def lastScenario : ℕ → Option (State × NimAction) :=
  fun p => if p = 1 then some ([0, 0, 1, 1], ((2 : ℤ), (1 : ℤ))) else none

/-- The agent of the greedy-selection scenario: the dictionary holds 0.9 at
key `((1,3,5,7), (0,1))` and nothing else, `alpha` 0.5, `epsilon` 0. -/
def scenarioAI : NimAI :=
  ⟨fun k => if k = ([1, 3, 5, 7], ((0 : ℤ), (1 : ℤ))) then some (9 / 10) else none, 1 / 2, 0⟩

/-! ### Helper lemmas about the action enumeration -/

theorem mem_availableActionsFrom (ps : List ℕ) (k : ℕ) (a : NimAction) :
    a ∈ availableActionsFrom k ps ↔
      ∃ m, m < ps.length ∧ a.1 = ((k + m : ℕ) : ℤ) ∧ 1 ≤ a.2 ∧ a.2 ≤ (ps.getD m 0 : ℤ) := by
  obtain ⟨a1, a2⟩ := a
  induction ps generalizing k with
  | nil => simp [availableActionsFrom]
  | cons p ps ih =>
      constructor
      · intro h
        rw [availableActionsFrom, List.mem_append] at h
        rcases h with h | h
        · rw [List.mem_map] at h
          obtain ⟨j, hjr, heq⟩ := h
          rw [List.mem_range] at hjr
          obtain ⟨h1, h2⟩ := Prod.mk.injEq .. ▸ heq
          refine ⟨0, by simp, by simp [← h1], ?_, ?_⟩
          · simp only [← h2]; omega
          · simp only [← h2, List.getD_cons_zero]; omega
        · rw [ih] at h
          obtain ⟨m, hm, h1, h2, h3⟩ := h
          refine ⟨m + 1, by simp only [List.length_cons]; omega, ?_, h2, ?_⟩
          · rw [h1]; push_cast; ring
          · simpa [List.getD_cons_succ] using h3
      · rintro ⟨m, hm, h1, h2, h3⟩
        rw [availableActionsFrom, List.mem_append]
        match m with
        | 0 =>
            left
            rw [List.mem_map]
            simp only [List.getD_cons_zero] at h3
            simp only at h1 h2
            refine ⟨a2.toNat - 1, ?_, ?_⟩
            · rw [List.mem_range]; omega
            · have ha1 : (k : ℤ) = a1 := by simp at h1; omega
              have ha2 : ((a2.toNat - 1 : ℕ) : ℤ) + 1 = a2 := by omega
              rw [Prod.mk.injEq]
              exact ⟨ha1, ha2⟩
        | m + 1 =>
            right
            rw [ih]
            simp only [List.getD_cons_succ] at h3
            refine ⟨m, by simp at hm; omega, ?_, h2, h3⟩
            simp only at h1
            rw [h1]; push_cast; ring

theorem mem_available_actions (piles : List ℕ) (a : NimAction) :
    a ∈ Nim.available_actions piles ↔
      0 ≤ a.1 ∧ a.1.toNat < piles.length ∧ 1 ≤ a.2 ∧
        a.2 ≤ (piles.getD a.1.toNat 0 : ℤ) := by
  rw [Nim.available_actions, mem_availableActionsFrom]
  constructor
  · rintro ⟨m, hm, h1, h2, h3⟩
    have hm0 : (0 + m : ℕ) = m := by omega
    rw [hm0] at h1
    have htn : a.1.toNat = m := by omega
    refine ⟨by omega, by omega, h2, by rwa [htn]⟩
  · rintro ⟨h0, hlen, h2, h3⟩
    exact ⟨a.1.toNat, hlen, by omega, h2, h3⟩

theorem availableActionsFrom_eq_nil (ps : List ℕ) (k : ℕ) :
    availableActionsFrom k ps = [] ↔ ∀ p ∈ ps, p = 0 := by
  induction ps generalizing k with
  | nil => simp [availableActionsFrom]
  | cons p ps ih =>
      simp [availableActionsFrom, List.append_eq_nil, List.map_eq_nil_iff, List.range_eq_nil, ih]

theorem available_actions_eq_nil (piles : List ℕ) :
    Nim.available_actions piles = [] ↔ ∀ p ∈ piles, p = 0 :=
  availableActionsFrom_eq_nil piles 0

/-! ### Helper lemmas about maxima -/

theorem le_foldl_max_init (xs : List ℚ) : ∀ acc : ℚ, acc ≤ xs.foldl max acc := by
  induction xs with
  | nil => intro acc; simp
  | cons a l ih =>
      intro acc
      calc acc ≤ max acc a := le_max_left _ _
        _ ≤ l.foldl max (max acc a) := ih _
        _ = (a :: l).foldl max acc := by simp [List.foldl_cons]

theorem le_foldl_max_of_mem (xs : List ℚ) :
    ∀ (acc y : ℚ), y ∈ xs → y ≤ xs.foldl max acc := by
  induction xs with
  | nil => intro _ _ h; cases h
  | cons a l ih =>
      intro acc y hy
      rw [List.foldl_cons]
      rcases List.mem_cons.mp hy with rfl | hy
      · calc y ≤ max acc y := le_max_right _ _
          _ ≤ l.foldl max (max acc y) := le_foldl_max_init _ _
      · exact ih _ _ hy

theorem foldl_max_mem (xs : List ℚ) :
    ∀ acc : ℚ, xs.foldl max acc = acc ∨ xs.foldl max acc ∈ xs := by
  induction xs with
  | nil => intro acc; left; rfl
  | cons a l ih =>
      intro acc
      rw [List.foldl_cons]
      rcases ih (max acc a) with h | h
      · rcases max_choice acc a with hm | hm
        · left; rw [h, hm]
        · right; rw [h, hm]; exact List.mem_cons_self _ _
      · right; exact List.mem_cons_of_mem _ h

theorem le_listMaxD (x : ℚ) (xs : List ℚ) (y : ℚ) (hy : y ∈ x :: xs) :
    y ≤ listMaxD (x :: xs) := by
  rw [listMaxD]
  rcases List.mem_cons.mp hy with rfl | hy
  · exact le_foldl_max_init _ _
  · exact le_foldl_max_of_mem _ _ _ hy

theorem listMaxD_mem (x : ℚ) (xs : List ℚ) : listMaxD (x :: xs) ∈ x :: xs := by
  rw [listMaxD]
  rcases foldl_max_mem xs x with h | h
  · rw [h]; exact List.mem_cons_self _ _
  · exact List.mem_cons_of_mem _ h

/-! ### Helper lemmas about `maxByKey` -/

theorem maxByKey_mem (f : NimAction → ℚ) :
    ∀ (xs : List NimAction) (x : NimAction), maxByKey f x xs ∈ x :: xs := by
  intro xs
  induction xs with
  | nil => intro x; simp [maxByKey]
  | cons a rest ih =>
      intro x
      rw [maxByKey]
      rcases List.mem_cons.mp (ih (if f x < f a then a else x)) with h | h
      · rw [h]
        split
        · exact List.mem_cons_of_mem _ (List.mem_cons_self _ _)
        · exact List.mem_cons_self _ _
      · exact List.mem_cons_of_mem _ (List.mem_cons_of_mem _ h)

theorem le_maxByKey_init (f : NimAction → ℚ) :
    ∀ (xs : List NimAction) (x : NimAction), f x ≤ f (maxByKey f x xs) := by
  intro xs
  induction xs with
  | nil => intro x; simp [maxByKey]
  | cons a rest ih =>
      intro x
      rw [maxByKey]
      calc f x ≤ f (if f x < f a then a else x) := by split <;> [exact le_of_lt (by assumption); exact le_refl _]
        _ ≤ f (maxByKey f (if f x < f a then a else x) rest) := ih _

theorem le_maxByKey (f : NimAction → ℚ) :
    ∀ (xs : List NimAction) (x y : NimAction), y ∈ x :: xs → f y ≤ f (maxByKey f x xs) := by
  intro xs
  induction xs with
  | nil =>
      intro x y hy
      rcases List.mem_cons.mp hy with rfl | hy
      · simp [maxByKey]
      · cases hy
  | cons a rest ih =>
      intro x y hy
      rw [maxByKey]
      have hxa : f x ≤ f (if f x < f a then a else x) := by
        split <;> [exact le_of_lt (by assumption); exact le_refl _]
      have haa : f a ≤ f (if f x < f a then a else x) := by
        split
        · exact le_refl _
        · exact le_of_not_lt (by assumption)
      rcases List.mem_cons.mp hy with rfl | hy
      · exact le_trans hxa (le_maxByKey_init _ _ _)
      · rcases List.mem_cons.mp hy with rfl | hy
        · exact le_trans haa (le_maxByKey_init _ _ _)
        · exact ih _ _ (List.mem_cons_of_mem _ hy)

/-! ### Helper lemmas about `List.set` and `List.getD` -/

theorem getD_set_self (l : List ℕ) :
    ∀ (i v d : ℕ), i < l.length → (l.set i v).getD i d = v := by
  induction l with
  | nil => intro i v d h; simp at h
  | cons a l ih =>
      intro i v d h
      match i with
      | 0 => rfl
      | i + 1 =>
          simp only [List.set_cons_succ, List.getD_cons_succ]
          exact ih i v d (by simpa using h)

theorem getD_set_ne (l : List ℕ) :
    ∀ (i k v d : ℕ), i ≠ k → (l.set i v).getD k d = l.getD k d := by
  induction l with
  | nil => intro i k v d _; simp [List.set]
  | cons a l ih =>
      intro i k v d hne
      match i, k with
      | 0, 0 => exact absurd rfl hne
      | 0, k + 1 => rfl
      | i + 1, 0 => rfl
      | i + 1, k + 1 =>
          simp only [List.set_cons_succ, List.getD_cons_succ]
          exact ih i k v d (by omega)

/-! ### Characterizing `Nim.move` -/

/-- `Nim.move` written out as one conditional expression. -/
theorem move_eq (g : Nim) (i j : ℤ) :
    g.move (i, j) =
      if g.winner.isSome then (some .gameAlreadyWon, g)
      else if i < 0 ∨ (g.piles.length : ℤ) ≤ i then (some .invalidPile, g)
      else if j < 1 ∨ (g.piles.getD i.toNat 0 : ℤ) < j then (some .invalidNumberOfObjects, g)
      else
        (none,
          let np := g.piles.set i.toNat (g.piles.getD i.toNat 0 - j.toNat)
          let p2 := Nim.other_player g.player
          if np.all (· = 0) then (⟨np, p2, some p2⟩ : Nim) else ⟨np, p2, g.winner⟩) := rfl

theorem move_ok_iff (g : Nim) (i j : ℤ) :
    (g.move (i, j)).1 = none ↔
      g.winner = none ∧ 0 ≤ i ∧ i.toNat < g.piles.length ∧ 1 ≤ j ∧
        j ≤ (g.piles.getD i.toNat 0 : ℤ) := by
  rw [move_eq]
  by_cases hw : g.winner.isSome
  · obtain ⟨w, hww⟩ := Option.isSome_iff_exists.mp hw
    rw [if_pos hw]
    simp [hww]
  · rw [if_neg hw]
    have hwn : g.winner = none := Option.not_isSome_iff_eq_none.mp hw
    by_cases hp : i < 0 ∨ (g.piles.length : ℤ) ≤ i
    · rw [if_pos hp]
      simp only [hwn]
      constructor
      · intro h; cases h
      · rintro ⟨-, h0, hlen, -, -⟩
        exfalso
        rcases hp with hp | hp <;> omega
    · rw [if_neg hp]
      push_neg at hp
      by_cases hc : j < 1 ∨ (g.piles.getD i.toNat 0 : ℤ) < j
      · rw [if_pos hc]
        constructor
        · intro h; cases h
        · rintro ⟨-, -, -, h1, h2⟩
          exfalso
          rcases hc with hc | hc <;> omega
      · rw [if_neg hc]
        push_neg at hc
        refine ⟨fun _ => ⟨hwn, by omega, by omega, hc.1, hc.2⟩, fun _ => rfl⟩

/-- On a successful move the resulting state is: target pile decremented,
player switched, winner set exactly when all piles are now zero. -/
theorem move_ok_snd (g : Nim) (i j : ℤ) (h : (g.move (i, j)).1 = none) :
    (g.move (i, j)).2 =
      let np := g.piles.set i.toNat (g.piles.getD i.toNat 0 - j.toNat)
      let p2 := Nim.other_player g.player
      (⟨np, p2, if np.all (· = 0) then some p2 else none⟩ : Nim) := by
  rw [move_ok_iff] at h
  obtain ⟨hwn, h0, hlen, h1, h2⟩ := h
  rw [move_eq]
  rw [if_neg (by simp [hwn]), if_neg (by omega), if_neg (by omega), hwn]
  dsimp only
  split <;> rfl

theorem maxByKey_of_le (f : NimAction → ℚ) (x : NimAction) :
    ∀ xs : List NimAction, (∀ b ∈ xs, ¬ f x < f b) → maxByKey f x xs = x := by
  intro xs
  induction xs with
  | nil => intro _; rfl
  | cons a rest ih =>
      intro h
      rw [maxByKey, if_neg (h a (List.mem_cons_self _ _))]
      exact ih fun b hb => h b (List.mem_cons_of_mem _ hb)

theorem other_player_ne (p : ℕ) : Nim.other_player p ≠ p := by
  rw [Nim.other_player]
  split
  · omega
  · intro h
    omega

/-! ### The claims -/

/-- C7: `available_actions` returns exactly the pairs `(i, j)` with
`0 ≤ i < len(piles)` and `1 ≤ j ≤ piles[i]`, and the result is empty iff
every pile is zero. -/
theorem C7_available_actions_exact (piles : List ℕ) :
    (∀ a : NimAction, a ∈ Nim.available_actions piles ↔
        0 ≤ a.1 ∧ a.1.toNat < piles.length ∧ 1 ≤ a.2 ∧
          a.2 ≤ (piles.getD a.1.toNat 0 : ℤ)) ∧
    (Nim.available_actions piles = [] ↔ ∀ p ∈ piles, p = 0) :=
  ⟨fun a => mem_available_actions piles a, available_actions_eq_nil piles⟩

/-- C7 witness: `(0,1)` is available from `[1,3,5,7]` and `[0,0]` offers no
action, obtained from the characterization at those inputs. -/
theorem C7_available_actions_exact_witness :
    ((0 : ℤ), (1 : ℤ)) ∈ Nim.available_actions [1, 3, 5, 7] ∧
    Nim.available_actions [0, 0] = [] :=
  ⟨((C7_available_actions_exact [1, 3, 5, 7]).1 (0, 1)).mpr (by decide),
   (C7_available_actions_exact [0, 0]).2.mpr (by decide)⟩

/-- C1 counterexample: from piles `[0,0,0,1]` with player 0 to move, the
move `(3,1)` succeeds and empties the board, yet the recorded winner is
player 1 — not the mover, player 0.  The claim "the winner equals the
player who just moved" is false on the code. -/
theorem C1_winner_is_mover_counterexample :
    ((Nim.start [0, 0, 0, 1]).move (3, 1)).1 = none ∧
    ((Nim.start [0, 0, 0, 1]).move (3, 1)).2.piles = [0, 0, 0, 0] ∧
    (Nim.start [0, 0, 0, 1]).player = 0 ∧
    ((Nim.start [0, 0, 0, 1]).move (3, 1)).2.winner = some 1 ∧
    ((Nim.start [0, 0, 0, 1]).move (3, 1)).2.winner ≠
      some (Nim.start [0, 0, 0, 1]).player := by decide

/-- C1 (amended): for every successful move that leaves all piles equal to
zero, the winner recorded on the game state equals the OTHER player — the
new active player after the switch — and never the mover.  Turn-switching
happens before the win check, so the player who takes the last object
loses. -/
theorem C1_last_mover_loses (g : Nim) (i j : ℤ)
    (hok : (g.move (i, j)).1 = none)
    (hz : ∀ p ∈ (g.move (i, j)).2.piles, p = 0) :
    (g.move (i, j)).2.winner = some (Nim.other_player g.player) ∧
    (g.move (i, j)).2.winner ≠ some g.player := by
  rw [move_ok_snd g i j hok] at hz ⊢
  have hall : ((g.piles.set i.toNat (g.piles.getD i.toNat 0 - j.toNat)).all (· = 0)) = true :=
    List.all_eq_true.mpr (by intro x hx; simpa using hz x hx)
  constructor
  · show (if (g.piles.set i.toNat (g.piles.getD i.toNat 0 - j.toNat)).all (· = 0)
        then some (Nim.other_player g.player) else none) = some (Nim.other_player g.player)
    rw [if_pos hall]
  · show (if (g.piles.set i.toNat (g.piles.getD i.toNat 0 - j.toNat)).all (· = 0)
        then some (Nim.other_player g.player) else none) ≠ some g.player
    rw [if_pos hall]
    intro h
    exact other_player_ne g.player (Option.some.injEq .. ▸ h)

/-- C1 witness: the amended statement applied to the concrete board
`[0,0,0,1]`, player 0 taking `(3,1)`. -/
theorem C1_last_mover_loses_witness :
    ((Nim.start [0, 0, 0, 1]).move (3, 1)).2.winner =
      some (Nim.other_player (Nim.start [0, 0, 0, 1]).player) ∧
    ((Nim.start [0, 0, 0, 1]).move (3, 1)).2.winner ≠
      some (Nim.start [0, 0, 0, 1]).player :=
  C1_last_mover_loses (Nim.start [0, 0, 0, 1]) 3 1 (by decide) (by decide)

/-- C4: after every successful move the winner field is set iff all piles
are zero after the decrement, and when set it equals the new
`active_player` (the value of the `player` field after the switch); while
some pile is non-zero the winner stays absent. -/
theorem C4_winner_iff_empty (g : Nim) (i j : ℤ)
    (hok : (g.move (i, j)).1 = none) :
    ((g.move (i, j)).2.winner.isSome ↔ ∀ p ∈ (g.move (i, j)).2.piles, p = 0) ∧
    (∀ w, (g.move (i, j)).2.winner = some w → w = (g.move (i, j)).2.player) := by
  rw [move_ok_snd g i j hok]
  dsimp only
  constructor
  · by_cases hall : ((g.piles.set i.toNat (g.piles.getD i.toNat 0 - j.toNat)).all (· = 0)) = true
    · rw [if_pos hall]
      simp only [Option.isSome_some, true_iff]
      intro p hp
      simpa using List.all_eq_true.mp hall p hp
    · rw [if_neg hall]
      simp only [Option.isSome_none, Bool.false_eq_true, false_iff]
      intro hz
      exact hall (List.all_eq_true.mpr fun x hx => by simpa using hz x hx)
  · intro w hw
    by_cases hall : ((g.piles.set i.toNat (g.piles.getD i.toNat 0 - j.toNat)).all (· = 0)) = true
    · rw [if_pos hall] at hw
      exact (Option.some.injEq .. ▸ hw).symm
    · rw [if_neg hall] at hw
      cases hw

/-- C4 witness: the statement at the concrete board `[0,0,0,1]`, move
`(3,1)`. -/
theorem C4_winner_iff_empty_witness :
    (((Nim.start [0, 0, 0, 1]).move (3, 1)).2.winner.isSome ↔
      ∀ p ∈ ((Nim.start [0, 0, 0, 1]).move (3, 1)).2.piles, p = 0) ∧
    (∀ w, ((Nim.start [0, 0, 0, 1]).move (3, 1)).2.winner = some w →
      w = ((Nim.start [0, 0, 0, 1]).move (3, 1)).2.player) :=
  C4_winner_iff_empty (Nim.start [0, 0, 0, 1]) 3 1 (by decide)

/-- C8: a successful move `(i, j)` decreases pile `i` by exactly `j`, leaves
every other pile (and the pile count) unchanged, and flips the active
player exactly once, from 0 to 1 or from 1 to 0. -/
theorem C8_move_frame (g : Nim) (i j : ℤ)
    (hok : (g.move (i, j)).1 = none)
    (hp : g.player = 0 ∨ g.player = 1) :
    (g.move (i, j)).2.piles.length = g.piles.length ∧
    ((g.move (i, j)).2.piles.getD i.toNat 0 : ℤ) = (g.piles.getD i.toNat 0 : ℤ) - j ∧
    (∀ k : ℕ, k ≠ i.toNat → (g.move (i, j)).2.piles.getD k 0 = g.piles.getD k 0) ∧
    ((g.player = 0 ∧ (g.move (i, j)).2.player = 1) ∨
      (g.player = 1 ∧ (g.move (i, j)).2.player = 0)) := by
  obtain ⟨hwn, h0, hlen, h1, h2⟩ := (move_ok_iff g i j).mp hok
  rw [move_ok_snd g i j hok]
  dsimp only
  refine ⟨List.length_set .., ?_, ?_, ?_⟩
  · rw [getD_set_self g.piles i.toNat _ 0 hlen]
    omega
  · intro k hk
    exact getD_set_ne g.piles i.toNat k _ 0 (by omega)
  · rcases hp with hp | hp <;> simp [hp, Nim.other_player]

/-- C8 witness: the statement at the starting board `[1,3,5,7]`, player 0
taking two items from pile 1. -/
theorem C8_move_frame_witness :
    ((Nim.start [1, 3, 5, 7]).move (1, 2)).2.piles.length = (Nim.start [1, 3, 5, 7]).piles.length ∧
    (((Nim.start [1, 3, 5, 7]).move (1, 2)).2.piles.getD (1 : ℤ).toNat 0 : ℤ) =
      ((Nim.start [1, 3, 5, 7]).piles.getD (1 : ℤ).toNat 0 : ℤ) - 2 ∧
    (∀ k : ℕ, k ≠ (1 : ℤ).toNat →
      ((Nim.start [1, 3, 5, 7]).move (1, 2)).2.piles.getD k 0 =
        (Nim.start [1, 3, 5, 7]).piles.getD k 0) ∧
    (((Nim.start [1, 3, 5, 7]).player = 0 ∧ ((Nim.start [1, 3, 5, 7]).move (1, 2)).2.player = 1) ∨
      ((Nim.start [1, 3, 5, 7]).player = 1 ∧ ((Nim.start [1, 3, 5, 7]).move (1, 2)).2.player = 0)) :=
  C8_move_frame (Nim.start [1, 3, 5, 7]) 1 2 (by decide) (Or.inl rfl)

/-- C9: `move` fails with "Game already won" whenever a winner is set;
otherwise it fails with "Invalid pile" when the index is out of range and
with "Invalid number of objects" when the count is outside `[1, piles[i]]`
(these two are the spec's InvalidMoveError); on every failure the state is
returned unchanged. -/
theorem C9_move_failures (g : Nim) (i j : ℤ) :
    (g.winner.isSome → g.move (i, j) = (some .gameAlreadyWon, g)) ∧
    (g.winner = none → (i < 0 ∨ (g.piles.length : ℤ) ≤ i) →
      g.move (i, j) = (some .invalidPile, g)) ∧
    (g.winner = none → ¬(i < 0 ∨ (g.piles.length : ℤ) ≤ i) →
      (j < 1 ∨ (g.piles.getD i.toNat 0 : ℤ) < j) →
      g.move (i, j) = (some .invalidNumberOfObjects, g)) ∧
    (∀ e, (g.move (i, j)).1 = some e → (g.move (i, j)).2 = g) := by
  refine ⟨?_, ?_, ?_, ?_⟩
  · intro hw
    rw [move_eq, if_pos hw]
  · intro hw hi
    rw [move_eq, if_neg (by simp [hw]), if_pos hi]
  · intro hw hi hj
    rw [move_eq, if_neg (by simp [hw]), if_neg hi, if_pos hj]
  · intro e he
    rw [move_eq] at he ⊢
    by_cases hw : g.winner.isSome
    · rw [if_pos hw]
    · rw [if_neg hw] at he ⊢
      by_cases hi : i < 0 ∨ (g.piles.length : ℤ) ≤ i
      · rw [if_pos hi]
      · rw [if_neg hi] at he ⊢
        by_cases hj : j < 1 ∨ (g.piles.getD i.toNat 0 : ℤ) < j
        · rw [if_pos hj]
        · rw [if_neg hj] at he
          simp at he

/-- C9 witness: each failure mode at a concrete input: a finished game, an
out-of-range pile, a too-large count; each returns the state unchanged. -/
theorem C9_move_failures_witness :
    (⟨[1], 0, some 0⟩ : Nim).move (0, 1) = (some .gameAlreadyWon, ⟨[1], 0, some 0⟩) ∧
    (⟨[1], 0, none⟩ : Nim).move (5, 1) = (some .invalidPile, ⟨[1], 0, none⟩) ∧
    (⟨[1], 0, none⟩ : Nim).move (0, 2) = (some .invalidNumberOfObjects, ⟨[1], 0, none⟩) :=
  ⟨(C9_move_failures ⟨[1], 0, some 0⟩ 0 1).1 (by decide),
   (C9_move_failures ⟨[1], 0, none⟩ 5 1).2.1 rfl (by decide),
   (C9_move_failures ⟨[1], 0, none⟩ 0 2).2.2.1 rfl (by decide) (by decide)⟩

/-- C10: lookups on the empty table return 0 for every key; after storing
`v` at `(s, a)`, reading `(s, a)` gives `v` while every other key is
unaffected; and a Python `list` and `tuple` carrying the same pile values
in the same order map to the same table key in both lookup and update. -/
theorem C10_qtable_spec (ai : NimAI) (s s' : PySeq) (a a' : NimAction) (v : ℚ)
    (xs : State) (alpha eps old_q reward future : ℚ) :
    (NimAI.start alpha eps).get_q_value s a = 0 ∧
    (ai.q_assign s a v).get_q_value s a = v ∧
    ((s'.tupleOf, a') ≠ (s.tupleOf, a) →
      (ai.q_assign s a v).get_q_value s' a' = ai.get_q_value s' a') ∧
    ai.get_q_value (.list xs) a = ai.get_q_value (.tup xs) a ∧
    ai.update_q_value (.list xs) a old_q reward future =
      ai.update_q_value (.tup xs) a old_q reward future := by
  refine ⟨rfl, ?_, ?_, rfl, rfl⟩
  · simp [NimAI.get_q_value, NimAI.q_assign]
  · intro h
    simp [NimAI.get_q_value, NimAI.q_assign, h]

/-- C10 witness: storing 5 at `([1], (0,1))` leaves the distinct key
`([2], (0,1))` reading as before. -/
theorem C10_qtable_spec_witness :
    ((NimAI.start (1 / 2) (1 / 10)).q_assign (.list [1]) (0, 1) 5).get_q_value
        (.list [2]) (0, 1) =
      (NimAI.start (1 / 2) (1 / 10)).get_q_value (.list [2]) (0, 1) :=
  (C10_qtable_spec (NimAI.start (1 / 2) (1 / 10)) (.list [1]) (.list [2]) (0, 1) (0, 1)
    5 [1] (1 / 2) (1 / 10) 0 0 0).2.2.1 (by decide)

/-- The `match` normal form of `best_future_reward`. -/
theorem best_future_reward_eq (ai : NimAI) (state : PySeq) :
    ai.best_future_reward state =
      match Nim.available_actions state.tupleOf with
      | [] => 0
      | a :: rest =>
          listMaxD ((a :: rest).map fun act => (ai.q (state.tupleOf, act)).getD 0) := rfl

/-- C5: `update` stores at key `(old_state, action)` the value
`old + alpha * ((reward + best_future) - old)`, where `old` is the stored
value (0 if absent) and `best_future` is the maximum stored value (default
0) over the actions available in `new_state`, or 0 when `new_state` has no
available action. -/
theorem C5_update_formula (ai : NimAI) (old_state : PySeq) (action : NimAction)
    (new_state : PySeq) (reward : ℚ) :
    (ai.update old_state action new_state reward).q (old_state.tupleOf, action) =
      some (ai.get_q_value old_state action +
        ai.alpha * ((reward + ai.best_future_reward new_state) -
          ai.get_q_value old_state action)) ∧
    (Nim.available_actions new_state.tupleOf = [] →
      ai.best_future_reward new_state = 0) ∧
    (∀ a ∈ Nim.available_actions new_state.tupleOf,
      ai.get_q_value new_state a ≤ ai.best_future_reward new_state) ∧
    (Nim.available_actions new_state.tupleOf ≠ [] →
      ∃ a ∈ Nim.available_actions new_state.tupleOf,
        ai.best_future_reward new_state = ai.get_q_value new_state a) := by
  refine ⟨?_, ?_, ?_, ?_⟩
  · simp [NimAI.update, NimAI.update_q_value, NimAI.q_assign]
  · intro h
    rw [best_future_reward_eq, h]
  · intro a ha
    rw [best_future_reward_eq]
    cases hAct : Nim.available_actions new_state.tupleOf with
    | nil => rw [hAct] at ha; cases ha
    | cons b rest =>
        rw [hAct] at ha
        exact le_listMaxD _ _ _ (List.mem_map_of_mem _ ha)
  · intro h
    rw [best_future_reward_eq]
    cases hAct : Nim.available_actions new_state.tupleOf with
    | nil => exact absurd hAct h
    | cons b rest =>
        have hmem : listMaxD ((b :: rest).map fun act => (ai.q (new_state.tupleOf, act)).getD 0) ∈
            (b :: rest).map fun act => (ai.q (new_state.tupleOf, act)).getD 0 := by
          rw [List.map_cons]
          exact listMaxD_mem _ _
        obtain ⟨a, ha, heq⟩ := List.mem_map.mp hmem
        exact ⟨a, ha, heq.symm⟩

/-- C5 witness: a terminal `new_state` (`[0,0]`) gives best-future 0, and a
non-terminal one (`[1]`) attains its best-future at an available action. -/
theorem C5_update_formula_witness :
    (NimAI.start (1 / 2) (1 / 10)).best_future_reward (.list [0, 0]) = 0 ∧
    ∃ a ∈ Nim.available_actions ((PySeq.list [1]).tupleOf),
      (NimAI.start (1 / 2) (1 / 10)).best_future_reward (.list [1]) =
        (NimAI.start (1 / 2) (1 / 10)).get_q_value (.list [1]) a :=
  ⟨(C5_update_formula (NimAI.start (1 / 2) (1 / 10)) (.list [0, 0]) (0, 1)
      (.list [0, 0]) 0).2.1 (by decide),
   (C5_update_formula (NimAI.start (1 / 2) (1 / 10)) (.list [1]) (0, 1)
      (.list [1]) 0).2.2.2 (by decide)⟩

/-- C6: `choose_action` fails with the no-available-actions error iff the
state offers no action; whenever the epsilon draw is out of play (the
explore pick is absent) the returned action maximizes the stored Q-value
over the available actions, unseen pairs reading as 0; and in the scenario
with Q((1,3,5,7),(0,1)) = 0.9 and everything else unset, greedy selection
on `[1,3,5,7]` returns `(0,1)`. -/
theorem C6_choose_action_spec (ai : NimAI) (state : PySeq) (pick : Option NimAction) :
    (ai.choose_action state pick = .error .noAvailableActions ↔
      Nim.available_actions state.tupleOf = []) ∧
    (∀ act, pick = none → ai.choose_action state pick = .ok act →
      act ∈ Nim.available_actions state.tupleOf ∧
      ∀ b ∈ Nim.available_actions state.tupleOf,
        ai.get_q_value state b ≤ ai.get_q_value state act) ∧
    scenarioAI.choose_action (.list [1, 3, 5, 7]) none = .ok (0, 1) := by
  refine ⟨?_, ?_, ?_⟩
  · unfold NimAI.choose_action
    cases hAct : Nim.available_actions state.tupleOf with
    | nil => simp
    | cons a rest => cases pick <;> simp
  · intro act hpick hok
    subst hpick
    unfold NimAI.choose_action at hok
    cases hAct : Nim.available_actions state.tupleOf with
    | nil =>
        rw [hAct] at hok
        simp at hok
    | cons a rest =>
        rw [hAct] at hok
        have hact : act = maxByKey (fun act => (ai.q (state.tupleOf, act)).getD 0) a rest := by
          simpa using hok.symm
        subst hact
        exact ⟨maxByKey_mem _ rest a, fun b hb => le_maxByKey _ rest a b hb⟩
  · have hA : Nim.available_actions [1, 3, 5, 7] =
        (0, 1) :: [(1, 1), (1, 2), (1, 3), (2, 1), (2, 2), (2, 3), (2, 4), (2, 5),
          (3, 1), (3, 2), (3, 3), (3, 4), (3, 5), (3, 6), (3, 7)] := by decide
    unfold NimAI.choose_action
    simp only [PySeq.tupleOf]
    rw [hA]
    dsimp only
    exact congrArg Except.ok (maxByKey_of_le _ _ _ (by
      intro b hb
      fin_cases hb <;> simp +decide [scenarioAI] <;> norm_num))

/-- C6 witness: in the 0.9-scenario, `(0,1)` is available from `[1,3,5,7]`
and its stored value dominates every available action's value. -/
theorem C6_choose_action_spec_witness :
    (0, 1) ∈ Nim.available_actions ((PySeq.list [1, 3, 5, 7]).tupleOf) ∧
    ∀ b ∈ Nim.available_actions ((PySeq.list [1, 3, 5, 7]).tupleOf),
      scenarioAI.get_q_value (.list [1, 3, 5, 7]) b ≤
        scenarioAI.get_q_value (.list [1, 3, 5, 7]) (0, 1) :=
  (C6_choose_action_spec scenarioAI (.list [1, 3, 5, 7]) none).2.1 (0, 1) rfl
    (C6_choose_action_spec scenarioAI (.list [1, 3, 5, 7]) none).2.2

/-- When a move in the training loop produces a winner and the new current
player has a recorded last move, the pass performs exactly the two updates:
reward `-1` on the move just made, then reward `+1` on the new current
player's previous move, and the episode ends. -/
theorem trainStep_winner_eq (ai : NimAI) (game : Nim)
    (last : ℕ → Option (State × NimAction)) (action : NimAction)
    (ls : State) (la : NimAction)
    (hok : (game.move action).1 = none)
    (hwin : ((game.move action).2).winner.isSome)
    (hlast : last ((game.move action).2.player) = some (ls, la)) :
    trainStep ai game last action =
      .ok ((ai.update (.list game.piles) action (.list (game.move action).2.piles) (-1)).update
            (.list ls) la (.list (game.move action).2.piles) 1,
        (game.move action).2,
        fun p => if p = game.player then some (game.piles, action) else last p,
        true) := by
  obtain ⟨i, j⟩ := action
  have hpair : game.move (i, j) = (none, (game.move (i, j)).2) :=
    Prod.ext_iff.mpr ⟨hok, rfl⟩
  have hplayer : (game.move (i, j)).2.player = Nim.other_player game.player := by
    rw [move_ok_snd game i j hok]
  have hne : ¬ (game.move (i, j)).2.player = game.player := by
    rw [hplayer]
    exact other_player_ne _
  unfold trainStep
  rw [hpair]
  dsimp only
  rw [if_pos hwin, if_neg hne, hlast]

/-- C2: whenever a move in the training loop produces a winner, exactly two
Q-updates are applied and the episode ends: `update(state, action,
new_state, -1)` for the move that just ended the game, then
`update(last_state, last_action, new_state, +1)` for the most recent
previously recorded pair of the player who is the new active player after
the move. -/
theorem C2_terminal_double_update (ai : NimAI) (game : Nim)
    (last : ℕ → Option (State × NimAction)) (action : NimAction)
    (ls : State) (la : NimAction)
    (hok : (game.move action).1 = none)
    (hwin : ((game.move action).2).winner.isSome)
    (hlast : last ((game.move action).2.player) = some (ls, la)) :
    trainStep ai game last action =
      .ok ((ai.update (.list game.piles) action (.list (game.move action).2.piles) (-1)).update
            (.list ls) la (.list (game.move action).2.piles) 1,
        (game.move action).2,
        fun p => if p = game.player then some (game.piles, action) else last p,
        true) :=
  trainStep_winner_eq ai game last action ls la hok hwin hlast

/-- C2 witness: the statement applied to the board `[0,0,0,1]` where player
0's `(3,1)` ends the game and player 1's previous move is on record. -/
theorem C2_terminal_double_update_witness :
    trainStep NimAI.start (Nim.start [0, 0, 0, 1]) lastScenario (3, 1) =
      .ok ((NimAI.start.update (.list (Nim.start [0, 0, 0, 1]).piles) (3, 1)
              (.list ((Nim.start [0, 0, 0, 1]).move (3, 1)).2.piles) (-1)).update
            (.list [0, 0, 1, 1]) (2, 1)
            (.list ((Nim.start [0, 0, 0, 1]).move (3, 1)).2.piles) 1,
        ((Nim.start [0, 0, 0, 1]).move (3, 1)).2,
        fun p => if p = (Nim.start [0, 0, 0, 1]).player
          then some ((Nim.start [0, 0, 0, 1]).piles, ((3 : ℤ), (1 : ℤ)))
          else lastScenario p,
        true) :=
  C2_terminal_double_update NimAI.start (Nim.start [0, 0, 0, 1]) lastScenario (3, 1)
    [0, 0, 1, 1] (2, 1) (by decide) (by decide) (by decide)

/-- The `[0,0,0,1]` training pass written out: move `(3,1)` by player 0 ends
the game with winner 1, the ending move is updated with reward `-1`, player
1's recorded move with reward `+1`. -/
theorem scenarioStep_eq :
    trainStep NimAI.start (Nim.start [0, 0, 0, 1]) lastScenario (3, 1) =
      .ok ((NimAI.start.update (.list [0, 0, 0, 1]) (3, 1) (.list [0, 0, 0, 0]) (-1)).update
            (.list [0, 0, 1, 1]) (2, 1) (.list [0, 0, 0, 0]) 1,
        (⟨[0, 0, 0, 0], 1, some 1⟩ : Nim),
        (fun p => if p = 0 then some ([0, 0, 0, 1], ((3 : ℤ), (1 : ℤ))) else lastScenario p),
        true) := by
  rw [trainStep_winner_eq NimAI.start (Nim.start [0, 0, 0, 1]) lastScenario (3, 1)
    [0, 0, 1, 1] (2, 1) (by decide) (by decide) (by decide)]
  rfl

/-- The Q-values left behind by the `[0,0,0,1]` pass: the mover's final pair
holds `-1/2` (the reward `-1` update from 0 with alpha `1/2`), the other
player's previous pair holds `1/2` (the reward `+1` update); the episode
ended. -/
theorem scenarioStep_qvalues :
    (stepAI (trainStep NimAI.start (Nim.start [0, 0, 0, 1]) lastScenario (3, 1))).get_q_value
        (.list [0, 0, 0, 1]) (3, 1) = -(1 / 2) ∧
    (stepAI (trainStep NimAI.start (Nim.start [0, 0, 0, 1]) lastScenario (3, 1))).get_q_value
        (.list [0, 0, 1, 1]) (2, 1) = 1 / 2 ∧
    stepEnded (trainStep NimAI.start (Nim.start [0, 0, 0, 1]) lastScenario (3, 1)) = true := by
  rw [scenarioStep_eq]
  refine ⟨?_, ?_, rfl⟩ <;>
    simp +decide [stepAI, NimAI.update, NimAI.update_q_value, NimAI.q_assign,
      NimAI.get_q_value, best_future_reward_eq, PySeq.tupleOf, NimAI.start,
      Nim.available_actions, availableActionsFrom]

/-- C3 counterexample: in the `[0,0,0,1]` episode the mover (player 0,
taking `(3,1)`) is NOT the recorded winner, and the mover's `(state,
action)` pair ends the episode holding `-1/2` — the value of the reward
`-1` update from 0 with `alpha = 1/2` — not the `+1/2` a reward `+1`
update would have produced.  The claim that the winner equals the mover
and that the mover's pair receives the `+1` update is false on the code. -/
theorem C3_mover_rewarded_counterexample :
    ((Nim.start [0, 0, 0, 1]).move (3, 1)).2.winner ≠ some (Nim.start [0, 0, 0, 1]).player ∧
    (stepAI (trainStep NimAI.start (Nim.start [0, 0, 0, 1]) lastScenario (3, 1))).get_q_value
        (.list [0, 0, 0, 1]) (3, 1) = -(1 / 2) ∧
    ¬ (stepAI (trainStep NimAI.start (Nim.start [0, 0, 0, 1]) lastScenario (3, 1))).get_q_value
        (.list [0, 0, 0, 1]) (3, 1) = 1 / 2 :=
  ⟨by decide, scenarioStep_qvalues.1, by rw [scenarioStep_qvalues.1]; norm_num⟩

/-- C3 (amended): facing `[0,0,0,1]`, the mover takes `(3,1)`; all piles
become zero and the winner is the OTHER player (the opponent of the
mover).  In the episode's terminal resolution the mover's `(state, action)`
pair receives the reward `-1` update (value `-1/2` from alpha `1/2`) and
the winner's most recent previous move receives the reward `+1` update
(value `1/2`); the episode ends. -/
theorem C3_scenario_resolution :
    ((Nim.start [0, 0, 0, 1]).move (3, 1)).1 = none ∧
    ((Nim.start [0, 0, 0, 1]).move (3, 1)).2.piles = [0, 0, 0, 0] ∧
    ((Nim.start [0, 0, 0, 1]).move (3, 1)).2.winner =
      some (Nim.other_player (Nim.start [0, 0, 0, 1]).player) ∧
    (stepAI (trainStep NimAI.start (Nim.start [0, 0, 0, 1]) lastScenario (3, 1))).get_q_value
        (.list [0, 0, 0, 1]) (3, 1) = -(1 / 2) ∧
    (stepAI (trainStep NimAI.start (Nim.start [0, 0, 0, 1]) lastScenario (3, 1))).get_q_value
        (.list [0, 0, 1, 1]) (2, 1) = 1 / 2 ∧
    stepEnded (trainStep NimAI.start (Nim.start [0, 0, 0, 1]) lastScenario (3, 1)) = true :=
  ⟨by decide, by decide, by decide, scenarioStep_qvalues.1, scenarioStep_qvalues.2.1,
   scenarioStep_qvalues.2.2⟩

example : Nim.available_actions [1, 2] = [(0, 1), (1, 1), (1, 2)] := by decide

example : (Nim.start.piles = [1, 3, 5, 7]) := by decide

example : ((Nim.start [0, 0, 0, 1]).move (3, 1)).2 = ⟨[0, 0, 0, 0], 1, some 1⟩ := by decide
